import Mathlib

/-!
Shallow embedding of the factor-graph module (src/graph.py) and proofs about
its specification.  All numeric values are modelled as rationals; numpy arrays
are modelled by the nested `Tensor` type; Python dicts keyed by RV name are
modelled by association lists.  Debug mode (the module default) is embedded:
an assertion failure or a raised exception is `none`.
-/

namespace FactorGraph

/-- Module constant `DEBUG_DEFAULT` (debug checks on by default). -/
def DEBUG_DEFAULT : Bool := true

/-- Module constant `LBP_MAX_ITERS`. -/
def LBP_MAX_ITERS : ℕ := 50

/-- Module constant `EPSILON` (0.0001). -/
def EPSILON : ℚ := 1 / 10000

/-- An assignment value: either an integer index or a string label. -/
inductive Label where
  | int (z : ℤ)
  | str (s : String)
deriving DecidableEq

/-- The construction-time data of an RV: `name`, `n_opts`, `labels`. -/
structure RVData where
  name : String
  n_opts : ℕ
  labels : List String
deriving DecidableEq, Inhabited

/-- Embeds `RV.has_label` with debug on: an integer label is valid iff it is
strictly below `n_opts` (no lower bound is checked); a string label is valid
iff it occurs in `labels`.  With no labels stored, a string argument trips the
debug type assertion, modelled as `none`. -/
def RVData.has_label (rv : RVData) (l : Label) : Option Bool :=
  if rv.labels.isEmpty then
    match l with
    | Label.int z => some (decide (z < (rv.n_opts : ℤ)))
    | Label.str _ => none
  else
    match l with
    | Label.int z => some (decide (z < (rv.n_opts : ℤ)))
    | Label.str s => some (rv.labels.contains s)

/-- Embeds `RV.get_int_label`: an integer passes through unchanged, a string
is replaced by its position in `labels`. -/
def RVData.get_int_label (rv : RVData) (l : Label) : ℤ :=
  match l with
  | Label.int z => z
  | Label.str s => (rv.labels.indexOf s : ℤ)

/-- A numpy value: a scalar entry or an array of sub-tensors. -/
inductive Tensor where
  | scalar (v : ℚ)
  | arr (ts : List Tensor)
deriving Inhabited

/-- Embeds `ndarray.shape`: the length of each axis, read along first
children (meaningful for rectangular tensors, see `Tensor.rect`). -/
def Tensor.shape : Tensor → List ℕ
  | Tensor.scalar _ => []
  | Tensor.arr [] => [0]
  | Tensor.arr (t :: ts) => (ts.length + 1) :: t.shape

/-- Whether the tensor is rectangular with the given axis lengths. -/
def Tensor.matchesShape : Tensor → List ℕ → Bool
  | Tensor.scalar _, [] => true
  | Tensor.arr ts, n :: rest => ts.length == n && ts.all (fun u => Tensor.matchesShape u rest)
  | _, _ => false

/-- A rectangular (genuine numpy) tensor: it matches its own shape. -/
def Tensor.rect (t : Tensor) : Bool := t.matchesShape t.shape

/-- Python integer indexing on the outermost axis: a negative index counts
from the end; anything out of `[-len, len)` raises (`none`).  Indexing a
scalar raises. -/
def Tensor.index : Tensor → ℤ → Option Tensor
  | Tensor.scalar _, _ => none
  | Tensor.arr ts, i =>
    if 0 ≤ i ∧ i < (ts.length : ℤ) then ts[i.toNat]?
    else if -(ts.length : ℤ) ≤ i ∧ i < 0 then ts[(i + ts.length).toNat]?
    else none

/-- Repeated indexing, as in the loop of `Factor.eval`. -/
def Tensor.indexChain : Tensor → List ℤ → Option Tensor
  | t, [] => some t
  | t, i :: rest =>
    match t.index i with
    | some u => Tensor.indexChain u rest
    | none => none

/-- The entry of a tensor at a tuple of (nonnegative) indices, if it is a
scalar. -/
def Tensor.atTuple (t : Tensor) (tup : List ℕ) : Option ℚ :=
  match t.indexChain (tup.map (fun n => (n : ℤ))) with
  | some (Tensor.scalar v) => some v
  | _ => none

/-- A factor node: its attached RVs in order, its belief tensor (if set) and
its stored outgoing messages (if `init_lbp` ran). -/
structure Factor where
  name : String
  rvs : List RVData
  belief : Option Tensor
  outgoing : Option (List (List ℚ))
deriving Inhabited

/-- The per-RV debug check `Factor.eval` runs: the assignment has an entry
for the RV and `has_label` returns `True`. -/
def evalCheck (rv : RVData) (ml : Option Label) : Bool :=
  ml.isSome && (rv.has_label (ml.getD (Label.int 0)) == some true)

/-- The integer index `Factor.eval` uses for one RV. -/
def evalIdx (rv : RVData) (ml : Option Label) : ℤ :=
  rv.get_int_label (ml.getD (Label.int 0))

/-- Embeds `Factor.eval`: after the debug checks, the belief is indexed once
per attached RV in order; the final debug assertion requires a scalar (an
ndarray result fails, so a factor with no attached RVs always fails since
its un-indexed belief is still an ndarray; a missing belief never yields a
numeric value). -/
def Factor.eval (f : Factor) (x : List (String × Label)) : Option ℚ :=
  if f.rvs.all (fun rv => evalCheck rv (List.lookup rv.name x)) then
    match f.belief with
    | none => none
    | some b =>
      if f.rvs.isEmpty then none
      else
        match b.indexChain (f.rvs.map (fun rv => evalIdx rv (List.lookup rv.name x))) with
        | some (Tensor.scalar v) => some v
        | _ => none
  else none

/-- Embeds `Factor.set_belief` with debug on: the rank and each axis length
must match the attached RVs' cardinalities in order. -/
def Factor.set_belief (f : Factor) (b : Tensor) : Option Factor :=
  if b.shape.length == f.rvs.length &&
      (b.shape.zip (f.rvs.map (fun rv => rv.n_opts))).all (fun p => p.1 == p.2) then
    some { f with belief := some b }
  else none

/-- Embeds `Factor.get_message_for`: the source is a stub that ignores the
stored messages and returns a fresh uniform vector sized to `rv` (so it does
not depend on the factor's state). -/
def Factor.get_message_for (_f : Factor) (rv : RVData) : List ℚ :=
  List.replicate rv.n_opts 1

/-- Embeds `Factor.init_lbp`: one uniform message per attached RV. -/
def Factor.init_lbp (f : Factor) : Factor :=
  { f with outgoing := some (f.rvs.map (fun rv => List.replicate rv.n_opts (1 : ℚ))) }

/-- Embeds `Factor.recompute_outgoing`: the source is a stub that changes no
state and returns `True`. -/
def Factor.recompute_outgoing (f : Factor) : Factor × Bool :=
  (f, true)

/-- The runtime state of an RV node: its data, attached factors and stored
outgoing messages (if `init_lbp` ran). -/
structure RVState where
  data : RVData
  factors : List Factor
  outgoing : Option (List (List ℚ))
deriving Inhabited

/-- Embeds `RV.init_lbp`: one uniform message of length `n_opts` per
attached factor. -/
def RVState.init_lbp (r : RVState) : RVState :=
  { r with outgoing := some (r.factors.map (fun _ => List.replicate r.data.n_opts (1 : ℚ))) }

/-- Embeds `np.isclose` with its default tolerances `rtol = 1e-5`,
`atol = 1e-8`. -/
def npIsClose (a b : ℚ) : Bool :=
  decide (|a - b| ≤ 1 / 100000000 + (1 / 100000) * |b|)

/-- Embeds `RV.recompute_outgoing`: requires `init_lbp` to have run (debug
assertion), gathers incoming messages via each factor's `get_message_for`
(asserting their lengths), then sets outgoing message `i` to
`total / incoming[i]` where `total` is the all-ones vector, and reports
convergence via `np.isclose` counts against the previous messages. -/
def RVState.recompute_outgoing (r : RVState) : Option (RVState × Bool) :=
  match r.outgoing with
  | none => none
  | some old =>
    if r.factors.length ≤ old.length then
      let incoming := r.factors.map (fun f => f.get_message_for r.data)
      if incoming.all (fun m => m.length == r.data.n_opts) then
        let total := List.replicate r.data.n_opts (1 : ℚ)
        let newOut := (List.range old.length).map (fun i =>
          if i < r.factors.length then
            List.zipWith (fun a b => a / b) total (incoming.getD i [])
          else old.getD i [])
        let convg := (List.range r.factors.length).all (fun i =>
          ((List.zipWith npIsClose (old.getD i []) (newOut.getD i [])).count true)
            == r.data.n_opts)
        some ({ r with outgoing := some newOut }, convg)
      else none
    else none

/-- The static graph: RVs (dict values in order) and factors. -/
structure Graph where
  rvs : List RVData
  factors : List Factor
deriving Inhabited

/-- Dict lookup `self._rvs[name]`. -/
def Graph.findRV (g : Graph) (n : String) : Option RVData :=
  g.rvs.find? (fun rv => rv.name == n)

/-- The debug validity block of `Graph.joint`: the assignment covers exactly
the RVs (length check), every key is a known RV with a valid label, and every
RV has a valid entry. -/
def Graph.jointValid (g : Graph) (x : List (String × Label)) : Bool :=
  x.length == g.rvs.length &&
    x.all (fun p => (g.findRV p.1).isSome &&
      (((g.findRV p.1).getD default).has_label p.2 == some true)) &&
    g.rvs.all (fun rv => (List.lookup rv.name x).isSome &&
      (rv.has_label ((List.lookup rv.name x).getD (Label.int 0)) == some true))

/-- Embeds `Graph.joint`: after validation, the product over factors of
`f.eval(x)`, starting from 1.0. -/
def Graph.joint (g : Graph) (x : List (String × Label)) : Option ℚ :=
  if g.jointValid x then
    g.factors.foldl (fun acc f => acc.bind (fun p => (f.eval x).map (fun v => p * v)))
      (some 1)
  else none

/-- Embeds `Graph._bf_bj_recurse`: at a leaf, return the assignment and its
joint; otherwise try every value of the first remaining RV, keeping the best
result under a strict comparison against the running best `(None, 0.0)`. -/
def Graph.bfRecurse (g : Graph) :
    List RVData → List (String × Label) → Option (Option (List (String × Label)) × ℚ)
  | [], assigned =>
    match g.joint assigned with
    | some r => some (some assigned, r)
    | none => none
  | rv :: rest, assigned =>
    (List.range rv.n_opts).foldl
      (fun acc v => acc.bind (fun best =>
        (g.bfRecurse rest (assigned ++ [(rv.name, Label.int (Int.ofNat v))])).map
          (fun pr => if best.2 < pr.2 then pr else best)))
      (some (none, 0))

/-- Embeds `Graph.bf_best_joint`. -/
def Graph.bf_best_joint (g : Graph) : Option (Option (List (String × Label)) × ℚ) :=
  g.bfRecurse g.rvs []

/-- The full assignments `bf_best_joint` enumerates, in enumeration order
(first RV outermost, values ascending). -/
def leavesFrom : List (String × Label) → List RVData → List (List (String × Label))
  | assigned, [] => [assigned]
  | assigned, rv :: rest =>
    (List.range rv.n_opts).flatMap
      (fun v => leavesFrom (assigned ++ [(rv.name, Label.int (Int.ofNat v))]) rest)

/-- One step of the running-best update of `_bf_bj_recurse` on a leaf. -/
def bfStep {α : Type} (best : Option α × ℚ) (ar : α × ℚ) : Option α × ℚ :=
  if best.2 < ar.2 then (some ar.1, ar.2) else best

/-- Combining a running best with a subtree result (strict comparison). -/
def bfCombine {α : Type} (b s : Option α × ℚ) : Option α × ℚ :=
  if b.2 < s.2 then s else b

/-- The running-best fold over a list of scored leaves. -/
def bfFold {α : Type} (L : List (α × ℚ)) : Option α × ℚ :=
  List.foldl bfStep ((none : Option α), (0 : ℚ)) L

/- LBP driver (Graph.lbp).  The node list mixes RV and factor states; since
`Factor.get_message_for` does not depend on the factor's state, per-node
copies of neighbours are observationally identical to the shared objects of
the source. -/

/-- A node of the LBP schedule. -/
inductive Node where
  | rvN (r : RVState)
  | facN (f : Factor)
deriving Inhabited

/-- Embeds `n_edges` for both node kinds. -/
def Node.n_edges : Node → ℕ
  | Node.rvN r => r.factors.length
  | Node.facN f => f.rvs.length

/-- Uniform message initialisation of one node. -/
def Node.init_lbp : Node → Node
  | Node.rvN r => Node.rvN r.init_lbp
  | Node.facN f => Node.facN f.init_lbp

/-- One `recompute_outgoing` call on a node. -/
def Node.recompute_outgoing : Node → Option (Node × Bool)
  | Node.rvN r =>
    match r.recompute_outgoing with
    | some (r', c) => some (Node.rvN r', c)
    | none => none
  | Node.facN f => some (Node.facN (f.recompute_outgoing).1, (f.recompute_outgoing).2)

/-- The outgoing-message store of a node (projection used to state results
without comparing belief tensors). -/
def Node.outgoingOf : Node → Option (List (List ℚ))
  | Node.rvN r => r.outgoing
  | Node.facN f => f.outgoing

/-- Stable insertion (Python's `sorted` is stable, ascending by `n_edges`). -/
def insertNode (x : Node) : List Node → List Node
  | [] => [x]
  | y :: ys => if x.n_edges ≤ y.n_edges then x :: y :: ys else y :: insertNode x ys

/-- Stable insertion sort by `n_edges`, embedding `Graph._sorted_nodes`. -/
def sortNodes : List Node → List Node
  | [] => []
  | x :: xs => insertNode x (sortNodes xs)

/-- The runtime graph driving `lbp`: RV states plus factors. -/
structure LGraph where
  rvStates : List RVState
  factors : List Factor

/-- Embeds `Graph._sorted_nodes`: RVs then factors, stably sorted by degree. -/
def LGraph.sorted_nodes (lg : LGraph) : List Node :=
  sortNodes (lg.rvStates.map Node.rvN ++ lg.factors.map Node.facN)

/-- One sweep of `Graph.lbp`: recompute every node in order, conjoining the
per-node convergence flags. -/
def lbpSweep : List Node → Option (List Node × Bool)
  | [] => some ([], true)
  | n :: ns =>
    match n.recompute_outgoing with
    | none => none
    | some (n', c) =>
      match lbpSweep ns with
      | none => none
      | some (ns', cs) => some (n' :: ns', c && cs)

/-- The iteration loop of `Graph.lbp` (`while cur_iter < LBP_MAX_ITERS and
not converged`), returning the final node states and the iteration count. -/
def lbpLoop : ℕ → List Node → ℕ → Option (List Node × ℕ)
  | 0, nodes, it => some (nodes, it)
  | fuel + 1, nodes, it =>
    match lbpSweep nodes with
    | none => none
    | some (nodes', conv) =>
      if conv then some (nodes', it + 1)
      else lbpLoop fuel nodes' (it + 1)

/-- Embeds `Graph.lbp`: sort, initialise all messages to uniform, iterate.
The source returns nothing and computes no marginals; the embedding exposes
the final node states and iteration count as the observable outcome. -/
def LGraph.lbp (lg : LGraph) : Option (List Node × ℕ) :=
  lbpLoop LBP_MAX_ITERS (lg.sorted_nodes.map Node.init_lbp) 0

/- Spec-side definitions, used to compare the code against the
specification's wording. -/

/-- Elementwise product of message vectors, starting from ones. -/
def vecProd (n : ℕ) (ms : List (List ℚ)) : List ℚ :=
  ms.foldl (fun acc m => List.zipWith (fun a b => a * b) acc m) (List.replicate n 1)

/-- Elementwise product of all messages except the one at index `i`. -/
def vecProdExcept (ms : List (List ℚ)) (i : ℕ) (n : ℕ) : List ℚ :=
  vecProd n (ms.eraseIdx i)

/-- Modelled from the spec: renormalization of a message by its sum. -/
def normalizeMsg (m : List ℚ) : List ℚ :=
  m.map (fun v => v / m.sum)

/-- Modelled from the spec: elementwise approximate equality of two message
stores within `EPSILON`. -/
def withinEpsilon (old new : List (List ℚ)) : Bool :=
  old.length == new.length &&
    (old.zip new).all (fun p =>
      p.1.length == p.2.length &&
        (p.1.zip p.2).all (fun q => decide (|q.1 - q.2| ≤ EPSILON)))

/-- All index tuples of the given axis lengths, used by the spec-side
sum-product rule. -/
def allTuples : List ℕ → List (List ℕ)
  | [] => [[]]
  | n :: rest => (List.range n).flatMap (fun v => (allTuples rest).map (fun tup => v :: tup))

/-- Modelled from the spec: the sum-product factor→RV message.  For each
value `v` of target RV `t`, sum the belief entries over all joint assignments
fixing `t = v`, each weighted by the incoming messages of the other RVs. -/
def specFactorMessage (f : Factor) (incoming : List (List ℚ)) (t : ℕ) : List ℚ :=
  let dims := f.rvs.map (fun rv => rv.n_opts)
  (List.range ((f.rvs.getD t default).n_opts)).map (fun v =>
    ((allTuples dims).filter (fun tup => tup.getD t 0 == v)).foldl
      (fun acc tup =>
        acc + (((f.belief.getD (Tensor.scalar 0)).atTuple tup).getD 0) *
          (List.range dims.length).foldl
            (fun p i => if i == t then p else p * ((incoming.getD i []).getD (tup.getD i 0) 0))
            1)
      0)

/-- Modelled from the spec: an RV's marginal is the normalized elementwise
product of its incoming factor messages. -/
def specMarginal (n : ℕ) (incoming : List (List ℚ)) : List ℚ :=
  normalizeMsg (vecProd n incoming)

/-- The names of a factor's attached RVs (used to restrict assignments). -/
def Factor.rvNames (f : Factor) : List String := f.rvs.map (fun rv => rv.name)

/-- Restriction of an assignment to a set of RV names. -/
def restrictTo (x : List (String × Label)) (names : List String) : List (String × Label) :=
  x.filter (fun p => names.contains p.1)

/-- Iterated `Factor.recompute_outgoing`. -/
def facIter : ℕ → Factor → Factor
  | 0, f => f
  | k + 1, f => facIter k (f.recompute_outgoing).1

/-- Iterated `RV.recompute_outgoing` (stopping on an assertion failure). -/
def rvIter : ℕ → RVState → RVState
  | 0, r => r
  | k + 1, r =>
    match r.recompute_outgoing with
    | some (r', _) => rvIter k r'
    | none => r

/-- The all-ones message store of an RV state. -/
def onesMsgs (r : RVState) : List (List ℚ) :=
  r.factors.map (fun _ => List.replicate r.data.n_opts (1 : ℚ))

/- Concrete instances used by witnesses and concrete-scenario claims. -/

/-- RV `a` of the pyfac test (cardinality 3). -/
def aRV : RVData := ⟨"a", 3, []⟩

/-- RV `b` of the pyfac test (cardinality 2). -/
def bRV : RVData := ⟨"b", 2, []⟩

/-- Factor over `[b]` with belief `[0.3, 0.7]`. -/
def fB : Factor :=
  ⟨"f_b", [bRV], some (Tensor.arr [Tensor.scalar (3/10), Tensor.scalar (7/10)]), none⟩

/-- Factor over `[a, b]` with belief `[[.2,.8],[.4,.6],[.1,.9]]`. -/
def fAB : Factor :=
  ⟨"f_ab", [aRV, bRV],
    some (Tensor.arr
      [Tensor.arr [Tensor.scalar (2/10), Tensor.scalar (8/10)],
       Tensor.arr [Tensor.scalar (4/10), Tensor.scalar (6/10)],
       Tensor.arr [Tensor.scalar (1/10), Tensor.scalar (9/10)]]), none⟩

/-- The pyfac test graph. -/
def gEx : Graph := ⟨[aRV, bRV], [fB, fAB]⟩

/-- A single RV `r` of cardinality 2. -/
def rC : RVData := ⟨"r", 2, []⟩

/-- A unary factor on `r` with belief `[8.0, 2.0]`. -/
def fC : Factor := ⟨"f_r", [rC], some (Tensor.arr [Tensor.scalar 8, Tensor.scalar 2]), none⟩

/-- The single-RV graph of the concrete LBP scenario. -/
def gC : Graph := ⟨[rC], [fC]⟩

/-- The runtime state of `r` before inference. -/
def rStateC : RVState := ⟨rC, [fC], none⟩

/-- The runtime graph of the concrete LBP scenario. -/
def lgC : LGraph := ⟨[rStateC], [fC]⟩

/-- An RV whose only touched belief entry is zero. -/
def zRV : RVData := ⟨"z", 1, []⟩

/-- A factor whose belief is identically zero. -/
def fZero : Factor := ⟨"f_z", [zRV], some (Tensor.arr [Tensor.scalar 0]), none⟩

/-- A graph on which every joint score is zero. -/
def gZero : Graph := ⟨[zRV], [fZero]⟩

/-- An RV state attached to two factors, after `init_lbp`. -/
def rvW : RVState := ⟨⟨"w", 2, []⟩, [fC, fB], some [[1, 1], [1, 1]]⟩


/- General list helpers. -/

theorem list_all_congr {α : Type} (l : List α) (f g : α → Bool)
    (h : ∀ a ∈ l, f a = g a) : l.all f = l.all g := by
  induction l with
  | nil => rfl
  | cons a t ih =>
    simp only [List.all_cons]
    rw [h a (List.mem_cons_self a t), ih (fun b hb => h b (List.mem_cons_of_mem a hb))]

theorem list_map_congr {α β : Type} (l : List α) (f g : α → β)
    (h : ∀ a ∈ l, f a = g a) : l.map f = l.map g := by
  induction l with
  | nil => rfl
  | cons a t ih =>
    simp only [List.map_cons]
    rw [h a (List.mem_cons_self a t), ih (fun b hb => h b (List.mem_cons_of_mem a hb))]

theorem list_foldl_congr {α β : Type} (l : List α) (F G : β → α → β) :
    ∀ (b : β), (∀ bb, ∀ a ∈ l, F bb a = G bb a) → l.foldl F b = l.foldl G b := by
  induction l with
  | nil => intro b _; rfl
  | cons a t ih =>
    intro b h
    simp only [List.foldl_cons]
    rw [h b a (List.mem_cons_self a t)]
    exact ih _ (fun bb y hy => h bb y (List.mem_cons_of_mem a hy))

/- Restriction of an assignment does not change the lookups `Factor.eval`
performs. -/

theorem lookup_restrictTo (names : List String) (n : String) (hn : n ∈ names) :
    ∀ (x : List (String × Label)),
      List.lookup n (restrictTo x names) = List.lookup n x := by
  intro x
  induction x with
  | nil => rfl
  | cons p xs ih =>
    have hfil : restrictTo (p :: xs) names =
        if names.contains p.1 then p :: restrictTo xs names else restrictTo xs names :=
      List.filter_cons
    rw [hfil]
    by_cases hk : names.contains p.1 = true
    · rw [if_pos hk]
      cases hnk : n == p.1 with
      | true =>
        obtain ⟨k, v⟩ := p
        rw [List.lookup_cons, List.lookup_cons, hnk]
      | false =>
        obtain ⟨k, v⟩ := p
        rw [List.lookup_cons, List.lookup_cons, hnk]
        exact ih
    · rw [if_neg (by simpa using hk)]
      have hne : (n == p.1) = false := by
        apply beq_false_of_ne
        rintro rfl
        exact hk (List.elem_iff.mpr hn)
      obtain ⟨k, v⟩ := p
      rw [ih, List.lookup_cons, hne]

theorem eval_restrictTo (f : Factor) (x : List (String × Label)) :
    f.eval (restrictTo x f.rvNames) = f.eval x := by
  have hl : ∀ rv ∈ f.rvs,
      List.lookup rv.name (restrictTo x f.rvNames) = List.lookup rv.name x := by
    intro rv hrv
    exact lookup_restrictTo f.rvNames rv.name
      (List.mem_map_of_mem (fun rv => rv.name) hrv) x
  unfold Factor.eval
  rw [list_all_congr f.rvs
        (fun rv => evalCheck rv (List.lookup rv.name (restrictTo x f.rvNames)))
        (fun rv => evalCheck rv (List.lookup rv.name x))
        (fun rv hrv => by simp only [hl rv hrv]),
      list_map_congr f.rvs
        (fun rv => evalIdx rv (List.lookup rv.name (restrictTo x f.rvNames)))
        (fun rv => evalIdx rv (List.lookup rv.name x))
        (fun rv hrv => by simp only [hl rv hrv])]

/- The product fold of `Graph.joint`. -/

theorem foldl_bind_prod (fs : List Factor) (e : Factor → Option ℚ) :
    ∀ (a : ℚ), (∀ f ∈ fs, (e f).isSome = true) →
      fs.foldl (fun acc f => acc.bind (fun p => (e f).map (fun v => p * v))) (some a)
        = some (a * (fs.map (fun f => (e f).getD 0)).prod) := by
  induction fs with
  | nil => intro a _; simp
  | cons f t ih =>
    intro a h
    obtain ⟨v, hv⟩ := Option.isSome_iff_exists.mp (h f (List.mem_cons_self f t))
    simp only [List.foldl_cons, Option.some_bind, hv, Option.map_some', List.map_cons,
      List.prod_cons, Option.getD_some]
    rw [ih (a * v) (fun q hq => h q (List.mem_cons_of_mem f hq)), mul_assoc]

/-- C1: on a valid assignment, `Graph.joint` returns exactly the product over
the graph's factors of each factor's `eval` at the assignment restricted to
that factor's attached RVs; with no factors the product is 1. -/
theorem c1_joint_eq_prod_of_restricted_evals (g : Graph) (x : List (String × Label))
    (hv : g.jointValid x = true)
    (he : ∀ f ∈ g.factors, (f.eval (restrictTo x f.rvNames)).isSome = true) :
    g.joint x =
      some ((g.factors.map (fun f => (f.eval (restrictTo x f.rvNames)).getD 0)).prod) := by
  unfold Graph.joint
  rw [if_pos hv]
  have hcongr := list_foldl_congr g.factors
    (fun acc f => acc.bind (fun p => (f.eval x).map (fun v => p * v)))
    (fun acc f => acc.bind (fun p => (f.eval (restrictTo x f.rvNames)).map (fun v => p * v)))
    (some 1)
    (fun bb f _ => by simp only [eval_restrictTo])
  rw [hcongr, foldl_bind_prod g.factors (fun f => f.eval (restrictTo x f.rvNames)) 1 he, one_mul]

/-- C1 witness: the pyfac example graph at the assignment a=0, b=1. -/
theorem c1_witness :
    gEx.joint [("a", Label.int 0), ("b", Label.int 1)] =
      some ((gEx.factors.map (fun f =>
        (f.eval (restrictTo [("a", Label.int 0), ("b", Label.int 1)] f.rvNames)).getD 0)).prod) :=
  c1_joint_eq_prod_of_restricted_evals gEx [("a", Label.int 0), ("b", Label.int 1)]
    (by decide) (by decide)


/- Shape-check characterization (C7). -/

theorem zip_all_eq_iff : ∀ (l1 l2 : List ℕ),
    ((l1.length == l2.length) && (l1.zip l2).all (fun p => p.1 == p.2)) = true ↔ l1 = l2 := by
  intro l1
  induction l1 with
  | nil =>
    intro l2
    cases l2 with
    | nil => simp
    | cons b u => simp
  | cons a t ih =>
    intro l2
    cases l2 with
    | nil => simp
    | cons b u =>
      have hu := ih u
      simp only [List.length_cons, List.zip_cons_cons, List.all_cons, Bool.and_eq_true,
        beq_iff_eq, List.cons.injEq] at hu ⊢
      constructor
      · rintro ⟨hlen, hab, hall⟩
        exact ⟨hab, hu.mp ⟨by omega, hall⟩⟩
      · rintro ⟨hab, htu⟩
        obtain ⟨hlen, hall⟩ := hu.mpr htu
        exact ⟨by omega, hab, hall⟩

/-- C7: `set_belief` fails exactly when the tensor's rank or an axis length
deviates from the attached RVs' count and cardinalities in order, and stores
the tensor as the belief whenever the shape matches exactly. -/
theorem c7_set_belief_shape_check (f : Factor) (b : Tensor) (_hrect : b.rect = true) :
    ((f.set_belief b).isSome = true ↔ b.shape = f.rvs.map (fun rv => rv.n_opts)) ∧
    (b.shape = f.rvs.map (fun rv => rv.n_opts) →
      f.set_belief b = some { f with belief := some b }) := by
  have hiff : (b.shape.length == f.rvs.length &&
      (b.shape.zip (f.rvs.map (fun rv => rv.n_opts))).all (fun p => p.1 == p.2)) = true
      ↔ b.shape = f.rvs.map (fun rv => rv.n_opts) := by
    rw [← zip_all_eq_iff b.shape (f.rvs.map (fun rv => rv.n_opts)), List.length_map]
  unfold Factor.set_belief
  by_cases hc : (b.shape.length == f.rvs.length &&
      (b.shape.zip (f.rvs.map (fun rv => rv.n_opts))).all (fun p => p.1 == p.2)) = true
  · rw [if_pos hc]
    exact ⟨⟨fun _ => hiff.mp hc, fun _ => rfl⟩, fun _ => rfl⟩
  · rw [if_neg hc]
    exact ⟨⟨fun h => by simp at h, fun h => absurd (hiff.mpr h) hc⟩,
      fun h => absurd (hiff.mpr h) hc⟩

/-- C7 witness: the matching `[8, 2]` belief on the unary factor over `r`. -/
theorem c7_witness :
    ((fC.set_belief (Tensor.arr [Tensor.scalar 8, Tensor.scalar 2])).isSome = true ↔
      (Tensor.arr [Tensor.scalar 8, Tensor.scalar 2]).shape =
        fC.rvs.map (fun rv => rv.n_opts)) ∧
    ((Tensor.arr [Tensor.scalar 8, Tensor.scalar 2]).shape =
        fC.rvs.map (fun rv => rv.n_opts) →
      fC.set_belief (Tensor.arr [Tensor.scalar 8, Tensor.scalar 2]) =
        some { fC with belief := some (Tensor.arr [Tensor.scalar 8, Tensor.scalar 2]) }) :=
  c7_set_belief_shape_check fC (Tensor.arr [Tensor.scalar 8, Tensor.scalar 2]) (by decide)

/- Factor message accessor vs stored messages (C5). -/

theorem facIter_fixed (f : Factor) : ∀ (k : ℕ), facIter k f = f := by
  intro k
  induction k with
  | zero => rfl
  | succ k ih => exact ih

/-- C5: after `init_lbp` and any number of `recompute_outgoing` calls, the
stored outgoing message for the `i`-th attached RV is exactly what
`get_message_for` returns for that RV, a vector of length `n_opts`. -/
theorem c5_get_message_matches_stored (f0 : Factor) (k i : ℕ) (hi : i < f0.rvs.length) :
    (facIter k f0.init_lbp).outgoing =
      some (f0.rvs.map (fun rv => List.replicate rv.n_opts (1 : ℚ))) ∧
    some ((facIter k f0.init_lbp).get_message_for ((facIter k f0.init_lbp).rvs.getD i default)) =
      (f0.rvs.map (fun rv => List.replicate rv.n_opts (1 : ℚ)))[i]? := by
  rw [facIter_fixed]
  refine ⟨rfl, ?_⟩
  rw [List.getElem?_map]
  have hsome : f0.rvs[i]? = some (f0.rvs.getD i default) := by
    rw [List.getD_eq_getElem?_getD, List.getElem?_eq_getElem hi, Option.getD_some]
  show some (Factor.get_message_for f0.init_lbp ((Factor.init_lbp f0).rvs.getD i default)) = _
  have hrvs : (Factor.init_lbp f0).rvs = f0.rvs := rfl
  rw [hrvs, hsome, Option.map_some']
  rfl

/-- C5 witness: the unary `[8, 2]` factor after one recompute sweep. -/
theorem c5_witness :
    (facIter 1 fC.init_lbp).outgoing =
      some (fC.rvs.map (fun rv => List.replicate rv.n_opts (1 : ℚ))) ∧
    some ((facIter 1 fC.init_lbp).get_message_for ((facIter 1 fC.init_lbp).rvs.getD 0 default)) =
      (fC.rvs.map (fun rv => List.replicate rv.n_opts (1 : ℚ)))[0]? :=
  c5_get_message_matches_stored fC 1 0 (by decide)

/- The uniform-message fixed point of the RV update (C3, C8). -/

theorem vecProd_all_ones (n : ℕ) (ms : List (List ℚ))
    (h : ∀ m ∈ ms, m = List.replicate n (1 : ℚ)) :
    vecProd n ms = List.replicate n (1 : ℚ) := by
  unfold vecProd
  have haux : ∀ (l : List (List ℚ)), (∀ m ∈ l, m = List.replicate n (1 : ℚ)) →
      l.foldl (fun acc m => List.zipWith (fun a b => a * b) acc m)
        (List.replicate n (1 : ℚ)) = List.replicate n (1 : ℚ) := by
    intro l
    induction l with
    | nil => intro _; rfl
    | cons m t ih =>
      intro hmem
      rw [List.foldl_cons, hmem m (List.mem_cons_self m t), List.zipWith_replicate', one_mul]
      exact ih (fun q hq => hmem q (List.mem_cons_of_mem m hq))
  exact haux ms h

theorem incoming_all_ones (r : RVState) :
    r.factors.map (fun f => f.get_message_for r.data) =
      List.replicate r.factors.length (List.replicate r.data.n_opts (1 : ℚ)) :=
  List.map_const' r.factors (List.replicate r.data.n_opts (1 : ℚ))

/-- On a state whose outgoing store is all-ones (as `init_lbp` produces),
`RV.recompute_outgoing` succeeds, leaves the store all-ones, and reports
convergence. -/
theorem recompute_on_ones (r0 : RVState) :
    RVState.recompute_outgoing { r0 with outgoing := some (onesMsgs r0) } =
      some ({ r0 with outgoing := some (onesMsgs r0) }, true) := by
  have hones : onesMsgs r0 =
      List.replicate r0.factors.length (List.replicate r0.data.n_opts (1 : ℚ)) :=
    List.map_const' r0.factors (List.replicate r0.data.n_opts (1 : ℚ))
  unfold RVState.recompute_outgoing
  simp only
  rw [hones]
  have hlen : r0.factors.length ≤
      (List.replicate r0.factors.length (List.replicate r0.data.n_opts (1 : ℚ))).length := by
    rw [List.length_replicate]
  rw [if_pos hlen]
  have hinc : (r0.factors.map (fun f => f.get_message_for r0.data)) =
      List.replicate r0.factors.length (List.replicate r0.data.n_opts (1 : ℚ)) :=
    List.map_const' r0.factors (List.replicate r0.data.n_opts (1 : ℚ))
  have hall : ((r0.factors.map (fun f => f.get_message_for r0.data)).all
      (fun m => m.length == r0.data.n_opts)) = true := by
    rw [List.all_eq_true]
    intro m hm
    rw [hinc] at hm
    rw [List.eq_of_mem_replicate hm, List.length_replicate]
    exact beq_self_eq_true r0.data.n_opts
  rw [if_pos hall]
  have hgetD : ∀ i, i < r0.factors.length →
      (List.replicate r0.factors.length (List.replicate r0.data.n_opts (1 : ℚ))).getD i []
        = List.replicate r0.data.n_opts (1 : ℚ) := by
    intro i hilt
    rw [List.getD_eq_getElem?_getD, List.getElem?_replicate, if_pos hilt, Option.getD_some]
  have hnew : (List.range (List.replicate r0.factors.length
        (List.replicate r0.data.n_opts (1 : ℚ))).length).map (fun i =>
      if i < r0.factors.length then
        List.zipWith (fun a b => a / b) (List.replicate r0.data.n_opts (1 : ℚ))
          ((r0.factors.map (fun f => f.get_message_for r0.data)).getD i [])
      else (List.replicate r0.factors.length
        (List.replicate r0.data.n_opts (1 : ℚ))).getD i []) =
      List.replicate r0.factors.length (List.replicate r0.data.n_opts (1 : ℚ)) := by
    rw [List.length_replicate]
    rw [list_map_congr (List.range r0.factors.length) _
        (fun _ => List.replicate r0.data.n_opts (1 : ℚ))
        (fun i hi => by
          rw [if_pos (List.mem_range.mp hi), hinc,
            hgetD i (List.mem_range.mp hi), List.zipWith_replicate']
          norm_num)]
    rw [List.map_const', List.length_range]
  rw [hnew]
  have hconv : ((List.range r0.factors.length).all (fun i =>
      ((List.zipWith npIsClose
          ((List.replicate r0.factors.length (List.replicate r0.data.n_opts (1 : ℚ))).getD i [])
          ((List.replicate r0.factors.length (List.replicate r0.data.n_opts (1 : ℚ))).getD i [])).count
        true) == r0.data.n_opts)) = true := by
    rw [List.all_eq_true]
    intro i hi
    rw [hgetD i (List.mem_range.mp hi), List.zipWith_replicate']
    have hcl : npIsClose 1 1 = true := by
      unfold npIsClose
      rw [decide_eq_true_eq]
      norm_num
    rw [hcl, List.count_replicate_self]
    exact beq_self_eq_true r0.data.n_opts
  rw [hconv]

theorem rvIter_init (r0 : RVState) : ∀ (k : ℕ),
    rvIter k r0.init_lbp = { r0 with outgoing := some (onesMsgs r0) } := by
  have hinit : r0.init_lbp = { r0 with outgoing := some (onesMsgs r0) } := rfl
  intro k
  induction k with
  | zero => exact hinit
  | succ k ih =>
    have h1 : rvIter (k + 1) r0.init_lbp =
        match RVState.recompute_outgoing r0.init_lbp with
        | some (r', _) => rvIter k r'
        | none => r0.init_lbp := rfl
    rw [h1]
    have h2 : RVState.recompute_outgoing r0.init_lbp =
        some ({ r0 with outgoing := some (onesMsgs r0) }, true) := recompute_on_ones r0
    rw [h2]
    exact ih

/- Epsilon comparison of a message store with itself (C8). -/

theorem zip_self_fst_eq_snd {α : Type} (l : List α) : ∀ q ∈ l.zip l, q.1 = q.2 := by
  induction l with
  | nil => intro q hq; simp at hq
  | cons a t ih =>
    intro q hq
    rw [List.zip_cons_cons] at hq
    rcases List.mem_cons.mp hq with h | h
    · rw [h]
    · exact ih q h

theorem withinEpsilon_self (m : List (List ℚ)) : withinEpsilon m m = true := by
  unfold withinEpsilon
  rw [Bool.and_eq_true]
  refine ⟨beq_self_eq_true m.length, ?_⟩
  rw [List.all_eq_true]
  intro p hp
  have hpp := zip_self_fst_eq_snd m p hp
  rw [Bool.and_eq_true]
  refine ⟨by rw [hpp]; exact beq_self_eq_true p.2.length, ?_⟩
  rw [List.all_eq_true]
  intro q hq
  rw [hpp] at hq
  have hqq := zip_self_fst_eq_snd p.2 q hq
  rw [decide_eq_true_eq, hqq, sub_self, abs_zero]
  unfold EPSILON
  norm_num

/-- C8: the convergence flag `RV.recompute_outgoing` returns equals the
claim's elementwise within-`EPSILON` comparison between the previous and the
new outgoing messages (on every state reachable from `init_lbp`, both are
`true`: the update is the identity there). -/
theorem c8_flag_equals_epsilon_test (r0 : RVState) (k : ℕ) :
    RVState.recompute_outgoing (rvIter k r0.init_lbp) =
      some ({ r0 with outgoing := some (onesMsgs r0) },
        withinEpsilon (onesMsgs r0) (onesMsgs r0)) := by
  rw [rvIter_init, withinEpsilon_self]
  exact recompute_on_ones r0

/- RV messages exclude the target factor (C3). -/

/-- C3: after initialisation, `RV.recompute_outgoing` sets the outgoing
message toward the `i`-th attached factor to the elementwise product of the
incoming messages of all other attached factors (the `i`-th incoming message
is excluded). -/
theorem c3_rv_message_excludes_target (r : RVState) (old : List (List ℚ))
    (hout : r.outgoing = some old) (hlen : r.factors.length ≤ old.length) :
    ∃ r' c newOut, r.recompute_outgoing = some (r', c) ∧ r'.outgoing = some newOut ∧
      ∀ i, i < r.factors.length →
        newOut.getD i [] =
          vecProdExcept (r.factors.map (fun f => f.get_message_for r.data)) i r.data.n_opts := by
  unfold RVState.recompute_outgoing
  rw [hout]
  simp only
  rw [if_pos hlen]
  have hinc : (r.factors.map (fun f => f.get_message_for r.data)) =
      List.replicate r.factors.length (List.replicate r.data.n_opts (1 : ℚ)) :=
    List.map_const' r.factors (List.replicate r.data.n_opts (1 : ℚ))
  have hall : ((r.factors.map (fun f => f.get_message_for r.data)).all
      (fun m => m.length == r.data.n_opts)) = true := by
    rw [List.all_eq_true]
    intro m hm
    rw [hinc] at hm
    rw [List.eq_of_mem_replicate hm, List.length_replicate]
    exact beq_self_eq_true r.data.n_opts
  rw [if_pos hall]
  refine ⟨_, _, _, rfl, rfl, ?_⟩
  intro i hi
  have hgetr : ((List.range old.length).map (fun j =>
      if j < r.factors.length then
        List.zipWith (fun a b => a / b) (List.replicate r.data.n_opts (1 : ℚ))
          ((r.factors.map (fun f => f.get_message_for r.data)).getD j [])
      else old.getD j [])).getD i [] =
      List.zipWith (fun a b => a / b) (List.replicate r.data.n_opts (1 : ℚ))
        ((r.factors.map (fun f => f.get_message_for r.data)).getD i []) := by
    rw [List.getD_eq_getElem?_getD, List.getElem?_map,
      List.getElem?_range (lt_of_lt_of_le hi hlen), Option.map_some', Option.getD_some,
      if_pos hi]
  rw [hgetr]
  have hgeti : ((r.factors.map (fun f => f.get_message_for r.data)).getD i []) =
      List.replicate r.data.n_opts (1 : ℚ) := by
    rw [hinc, List.getD_eq_getElem?_getD, List.getElem?_replicate, if_pos hi, Option.getD_some]
  rw [hgeti, List.zipWith_replicate']
  have hdiv : (1 : ℚ) / 1 = 1 := by norm_num
  rw [hdiv]
  unfold vecProdExcept
  rw [vecProd_all_ones r.data.n_opts _ (fun m hm => by
    have hmem := List.eraseIdx_subset _ i hm
    rw [hinc] at hmem
    exact List.eq_of_mem_replicate hmem)]

/-- C3 witness: an RV of cardinality 2 attached to two factors, just after
`init_lbp`. -/
theorem c3_witness :
    ∃ r' c newOut, rvW.recompute_outgoing = some (r', c) ∧ r'.outgoing = some newOut ∧
      ∀ i, i < rvW.factors.length →
        newOut.getD i [] =
          vecProdExcept (rvW.factors.map (fun f => f.get_message_for rvW.data)) i
            rvW.data.n_opts :=
  c3_rv_message_excludes_target rvW [[1, 1], [1, 1]] rfl (by decide)


/- The factor update is a stub (C2). -/

/-- C2: on the unary `[8.0, 2.0]` factor with uniform incoming message,
`Factor.recompute_outgoing` changes no state and returns `True` without any
`EPSILON` comparison, although the spec's sum-product rule prescribes the
raw message `[8, 2]`, renormalized to `[4/5, 1/5]` — neither of which equals
the stored (still uniform) message. -/
theorem c2_factor_recompute_is_stub :
    Factor.recompute_outgoing fC.init_lbp = (fC.init_lbp, true) ∧
    (fC.init_lbp).outgoing = some [[1, 1]] ∧
    specFactorMessage fC.init_lbp [[1, 1]] 0 = [8, 2] ∧
    normalizeMsg [8, 2] = [4/5, 1/5] ∧
    fC.init_lbp.get_message_for rC ≠ [8, 2] ∧
    fC.init_lbp.get_message_for rC ≠ [4/5, 1/5] := by
  refine ⟨rfl, rfl, ?_, ?_, ?_, ?_⟩
  · simp [specFactorMessage, allTuples, Tensor.atTuple, Tensor.indexChain, Tensor.index, fC, rC,
      Factor.init_lbp, List.range_succ]
  · norm_num [normalizeMsg]
  · intro h
    have h8 : (1 : ℚ) = 8 := by
      have hh := congrArg (fun l => l.headD 0) h
      simp only [Factor.get_message_for, rC, List.replicate, List.headD_cons] at hh
      exact hh
    norm_num at h8
  · intro h
    have h45 : (1 : ℚ) = 4/5 := by
      have hh := congrArg (fun l => l.headD 0) h
      simp only [Factor.get_message_for, rC, List.replicate, List.headD_cons] at hh
      exact hh
    norm_num at h45

/- The LBP driver computes no marginals (C4). -/

theorem lbpLoop_conv (fuel : ℕ) (nodes nodes' : List Node) (it : ℕ)
    (h : lbpSweep nodes = some (nodes', true)) :
    lbpLoop (fuel + 1) nodes it = some (nodes', it + 1) := by
  show (match lbpSweep nodes with
    | none => none
    | some (nodes2, conv) => if conv then some (nodes2, it + 1)
      else lbpLoop fuel nodes2 (it + 1)) = _
  rw [h]
  rfl

/-- C4: on the single-RV graph with unary belief `[8.0, 2.0]`, `Graph.lbp`
stops after one sweep with every message still uniform, and computes no
marginal at all; the spec-side marginal of the final factor→r messages is the
uniform `[1/2, 1/2]`, not the claimed `[4/5, 1/5]` (= `[0.8, 0.2]`). -/
theorem c4_lbp_computes_no_marginal :
    lgC.lbp = some ([Node.rvN { rStateC with outgoing := some (onesMsgs rStateC) },
        Node.facN fC.init_lbp], 1) ∧
    fC.init_lbp.outgoing = some [[1, 1]] ∧
    specMarginal rC.n_opts [[1, 1]] = [1/2, 1/2] ∧
    specMarginal rC.n_opts [[1, 1]] ≠ [4/5, 1/5] := by
  have hhalf : specMarginal rC.n_opts [[1, 1]] = [1/2, 1/2] := by
    show specMarginal 2 [[1, 1]] = [1/2, 1/2]
    simp [specMarginal, normalizeMsg, vecProd, List.replicate]
    norm_num
  refine ⟨?_, rfl, hhalf, ?_⟩
  · have hrv : (Node.rvN rStateC.init_lbp).recompute_outgoing =
        some (Node.rvN { rStateC with outgoing := some (onesMsgs rStateC) }, true) := by
      show (match RVState.recompute_outgoing rStateC.init_lbp with
        | some (r', c) => some (Node.rvN r', c)
        | none => none) = _
      rw [show RVState.recompute_outgoing rStateC.init_lbp =
          some ({ rStateC with outgoing := some (onesMsgs rStateC) }, true) from
        recompute_on_ones rStateC]
    have hsweep : lbpSweep [Node.rvN rStateC.init_lbp, Node.facN fC.init_lbp] =
        some ([Node.rvN { rStateC with outgoing := some (onesMsgs rStateC) },
          Node.facN fC.init_lbp], true) := by
      show (match (Node.rvN rStateC.init_lbp).recompute_outgoing with
        | none => none
        | some (n', c) =>
          match lbpSweep [Node.facN fC.init_lbp] with
          | none => none
          | some (ns', cs) => some (n' :: ns', c && cs)) = _
      rw [hrv]
      rfl
    show lbpLoop LBP_MAX_ITERS [Node.rvN rStateC.init_lbp, Node.facN fC.init_lbp] 0 = _
    exact lbpLoop_conv 49 _ _ 0 hsweep
  · rw [hhalf]
    intro h
    have h45 : (2 : ℚ)⁻¹ = 4/5 := by
      have hh := congrArg (fun l => l.headD 0) h
      simp at hh
      exact hh
    norm_num at h45

/- Negative integer labels pass validation and index from the end (C10). -/

/-- C10: `has_label` accepts every integer strictly below `n_opts`, negative
ones included; such an assignment passes the validation of `joint` and
`eval`, and `eval` then indexes the belief axis from the end (Python negative
indexing): on the `[8.0, 2.0]` belief, index `-1` yields `2.0`. -/
theorem c10_negative_labels_index_from_end :
    (∀ (rv : RVData) (z : ℤ), rv.labels = [] → z < (rv.n_opts : ℤ) →
        rv.has_label (Label.int z) = some true) ∧
    (∀ (ts : List Tensor) (w : ℤ), -(ts.length : ℤ) ≤ w → w < 0 →
        Tensor.index (Tensor.arr ts) w = ts[(w + ts.length).toNat]?) ∧
    gC.jointValid [("r", Label.int (-1))] = true ∧
    gC.joint [("r", Label.int (-1))] = some 2 ∧
    fC.eval [("r", Label.int (-1))] = some 2 := by
  refine ⟨?_, ?_, by decide, ?_, by decide⟩
  · intro rv z hlab hz
    simp [RVData.has_label, hlab, hz]
  · intro ts w h1 h2
    show (if 0 ≤ w ∧ w < (ts.length : ℤ) then ts[w.toNat]?
      else if -(ts.length : ℤ) ≤ w ∧ w < 0 then ts[(w + ts.length).toNat]?
      else none) = _
    rw [if_neg (by omega), if_pos ⟨h1, h2⟩]
  · have h12 : gC.joint [("r", Label.int (-1))] = some (1 * 2) := rfl
    rw [h12]
    norm_num

/-- C10 witness: the negative index `-1` on RV `r` and the `[8.0, 2.0]`
factor. -/
theorem c10_witness :
    RVData.has_label rC (Label.int (-1)) = some true ∧
    fC.eval [("r", Label.int (-1))] = some 2 :=
  ⟨c10_negative_labels_index_from_end.1 rC (-1) rfl (by decide),
    c10_negative_labels_index_from_end.2.2.2.2⟩


/- The running-best fold of the brute-force search (C6, C9). -/

theorem bfStep_snd_le {α : Type} (b : Option α × ℚ) (p : α × ℚ) : b.2 ≤ (bfStep b p).2 := by
  unfold bfStep
  by_cases h : b.2 < p.2
  · rw [if_pos h]
    exact le_of_lt h
  · rw [if_neg h]

theorem foldl_bfStep_le {α : Type} (L : List (α × ℚ)) :
    ∀ (b : Option α × ℚ), b.2 ≤ (List.foldl bfStep b L).2 := by
  induction L with
  | nil => intro b; exact le_refl _
  | cons p t ih =>
    intro b
    rw [List.foldl_cons]
    exact le_trans (bfStep_snd_le b p) (ih (bfStep b p))

theorem foldl_bfStep_eq_combine {α : Type} (L : List (α × ℚ)) :
    ∀ (b : Option α × ℚ), 0 ≤ b.2 →
      List.foldl bfStep b L =
        bfCombine b (List.foldl bfStep ((none : Option α), (0 : ℚ)) L) := by
  induction L with
  | nil =>
    intro b hb
    show b = bfCombine b ((none : Option α), (0 : ℚ))
    unfold bfCombine
    rw [if_neg (not_lt.mpr hb)]
  | cons p t ih =>
    intro b hb
    have hb1 : 0 ≤ (bfStep b p).2 := le_trans hb (bfStep_snd_le b p)
    have hb2 : 0 ≤ (bfStep ((none : Option α), (0 : ℚ)) p).2 :=
      le_trans (le_refl 0) (bfStep_snd_le ((none : Option α), (0 : ℚ)) p)
    have hS : 0 ≤ (List.foldl bfStep ((none : Option α), (0 : ℚ)) t).2 :=
      foldl_bfStep_le t ((none : Option α), (0 : ℚ))
    rw [List.foldl_cons, List.foldl_cons, ih (bfStep b p) hb1,
      ih (bfStep ((none : Option α), (0 : ℚ)) p) hb2]
    obtain ⟨a, r⟩ := p
    set S := List.foldl bfStep ((none : Option α), (0 : ℚ)) t with hSdef
    unfold bfStep bfCombine
    split_ifs <;> first
      | rfl
      | (exfalso; dsimp only at *; linarith)

theorem bfFold_first_max {α : Type} (L : List (α × ℚ)) :
    (∀ p ∈ L, p.2 ≤ (bfFold L).2) ∧
    (((bfFold L).1 = none ∧ (bfFold L).2 = 0) ∨
      ∃ L1 a L2, L = L1 ++ (a, (bfFold L).2) :: L2 ∧ (bfFold L).1 = some a ∧
        0 < (bfFold L).2 ∧ ∀ p ∈ L1, p.2 < (bfFold L).2) := by
  induction L with
  | nil => exact ⟨by simp, Or.inl ⟨rfl, rfl⟩⟩
  | cons p t ih =>
    obtain ⟨a, r⟩ := p
    obtain ⟨ihb, ihd⟩ := ih
    have hS : 0 ≤ (bfFold t).2 := foldl_bfStep_le t ((none : Option α), (0 : ℚ))
    have hfold : bfFold ((a, r) :: t) =
        bfCombine (bfStep ((none : Option α), (0 : ℚ)) (a, r)) (bfFold t) := by
      show List.foldl bfStep ((none : Option α), (0 : ℚ)) ((a, r) :: t) = _
      rw [List.foldl_cons]
      exact foldl_bfStep_eq_combine t (bfStep ((none : Option α), (0 : ℚ)) (a, r))
        (le_trans (le_refl 0) (bfStep_snd_le ((none : Option α), (0 : ℚ)) (a, r)))
    by_cases h0 : (0 : ℚ) < r
    · have hstep : bfStep ((none : Option α), (0 : ℚ)) (a, r) = (some a, r) := by
        unfold bfStep
        rw [if_pos (show ((none : Option α), (0 : ℚ)).2 < ((a, r) : α × ℚ).2 from h0)]
      by_cases h2 : r < (bfFold t).2
      · have hres : bfFold ((a, r) :: t) = bfFold t := by
          rw [hfold, hstep]
          unfold bfCombine
          rw [if_pos (show ((some a, r) : Option α × ℚ).2 < (bfFold t).2 from h2)]
        rw [hres]
        refine ⟨?_, ?_⟩
        · intro q hq
          rcases List.mem_cons.mp hq with hqa | hqt
          · rw [hqa]
            exact le_of_lt h2
          · exact ihb q hqt
        · rcases ihd with ⟨_, hz⟩ | ⟨L1, x, L2, hsplit, hfst, hpos, hpre⟩
          · exact absurd (hz ▸ h2) (not_lt.mpr (le_of_lt h0))
          · refine Or.inr ⟨(a, r) :: L1, x, L2, ?_, hfst, hpos, ?_⟩
            · rw [List.cons_append, ← hsplit]
            · intro q hq
              rcases List.mem_cons.mp hq with hqa | hqt
              · rw [hqa]
                exact h2
              · exact hpre q hqt
      · have hres : bfFold ((a, r) :: t) = (some a, r) := by
          rw [hfold, hstep]
          unfold bfCombine
          rw [if_neg (show ¬ ((some a, r) : Option α × ℚ).2 < (bfFold t).2 from h2)]
        rw [hres]
        refine ⟨?_, Or.inr ⟨[], a, t, rfl, rfl, h0, by simp⟩⟩
        intro q hq
        rcases List.mem_cons.mp hq with hqa | hqt
        · rw [hqa]
        · exact le_trans (ihb q hqt) (not_lt.mp h2)
    · have hstep : bfStep ((none : Option α), (0 : ℚ)) (a, r) =
          ((none : Option α), (0 : ℚ)) := by
        unfold bfStep
        rw [if_neg (show ¬ ((none : Option α), (0 : ℚ)).2 < ((a, r) : α × ℚ).2 from h0)]
      by_cases h3 : (0 : ℚ) < (bfFold t).2
      · have hres : bfFold ((a, r) :: t) = bfFold t := by
          rw [hfold, hstep]
          unfold bfCombine
          rw [if_pos (show ((none : Option α), (0 : ℚ)).2 < (bfFold t).2 from h3)]
        rw [hres]
        refine ⟨?_, ?_⟩
        · intro q hq
          rcases List.mem_cons.mp hq with hqa | hqt
          · rw [hqa]
            exact le_trans (not_lt.mp h0) (le_of_lt h3)
          · exact ihb q hqt
        · rcases ihd with ⟨_, hz⟩ | ⟨L1, x, L2, hsplit, hfst, hpos, hpre⟩
          · exact absurd (hz ▸ h3) (lt_irrefl 0)
          · refine Or.inr ⟨(a, r) :: L1, x, L2, ?_, hfst, hpos, ?_⟩
            · rw [List.cons_append, ← hsplit]
            · intro q hq
              rcases List.mem_cons.mp hq with hqa | hqt
              · rw [hqa]
                exact lt_of_le_of_lt (not_lt.mp h0) h3
              · exact hpre q hqt
      · have hS0 : (bfFold t).2 = 0 := le_antisymm (not_lt.mp h3) hS
        have hres : bfFold ((a, r) :: t) = ((none : Option α), (0 : ℚ)) := by
          rw [hfold, hstep]
          unfold bfCombine
          rw [if_neg (show ¬ ((none : Option α), (0 : ℚ)).2 < (bfFold t).2 from h3)]
        rw [hres]
        refine ⟨?_, Or.inl ⟨rfl, rfl⟩⟩
        intro q hq
        rcases List.mem_cons.mp hq with hqa | hqt
        · rw [hqa]
          exact not_lt.mp h0
        · exact le_trans (ihb q hqt) (le_of_eq hS0)

/- Flattening the recursion of `_bf_bj_recurse` into the leaf fold. -/

theorem flatMap_single {α β : Type} (h : α → β) :
    ∀ (l : List α), (l.flatMap (fun x => [h x])) = l.map h := by
  intro l
  induction l with
  | nil => rfl
  | cons a t ih => rw [List.flatMap_cons, List.map_cons, ih, List.singleton_append]

theorem foldl_bind_leaf {α : Type} (sub : ℕ → Option (Option α × ℚ)) (leaf : ℕ → α × ℚ) :
    ∀ (vs : List ℕ) (b : Option α × ℚ),
      (∀ v ∈ vs, sub v = some (some (leaf v).1, (leaf v).2)) →
      vs.foldl (fun acc v => acc.bind (fun best => (sub v).map
          (fun pr => if best.2 < pr.2 then pr else best))) (some b)
        = some (List.foldl bfStep b (vs.map leaf)) := by
  intro vs
  induction vs with
  | nil => intro b _; rfl
  | cons v t ih =>
    intro b h
    rw [List.foldl_cons]
    have hacc : ((some b).bind (fun best => (sub v).map
        (fun pr => if best.2 < pr.2 then pr else best))) = some (bfStep b (leaf v)) := by
      rw [h v (List.mem_cons_self v t)]
      rfl
    rw [hacc, List.map_cons, List.foldl_cons]
    exact ih (bfStep b (leaf v)) (fun w hw => h w (List.mem_cons_of_mem v hw))

theorem foldl_bind_combine {α : Type} (sub : ℕ → Option (Option α × ℚ))
    (LS : ℕ → List (α × ℚ)) :
    ∀ (vs : List ℕ) (b : Option α × ℚ), 0 ≤ b.2 →
      (∀ v ∈ vs, sub v = some (bfFold (LS v))) →
      vs.foldl (fun acc v => acc.bind (fun best => (sub v).map
          (fun pr => if best.2 < pr.2 then pr else best))) (some b)
        = some (List.foldl bfStep b (vs.flatMap LS)) := by
  intro vs
  induction vs with
  | nil => intro b _ _; rfl
  | cons v t ih =>
    intro b hb h
    rw [List.foldl_cons]
    have hacc : ((some b).bind (fun best => (sub v).map
        (fun pr => if best.2 < pr.2 then pr else best))) = some (bfCombine b (bfFold (LS v))) := by
      rw [h v (List.mem_cons_self v t)]
      rfl
    have hcomb : bfCombine b (bfFold (LS v)) = List.foldl bfStep b (LS v) :=
      (foldl_bfStep_eq_combine (LS v) b hb).symm
    rw [hacc, hcomb, List.flatMap_cons, List.foldl_append]
    exact ih (List.foldl bfStep b (LS v)) (le_trans hb (foldl_bfStep_le (LS v) b))
      (fun w hw => h w (List.mem_cons_of_mem v hw))

theorem bfRecurse_eq_bfFold (g : Graph) :
    ∀ (rest : List RVData) (rv : RVData) (assigned : List (String × Label)),
      (∀ a ∈ leavesFrom assigned (rv :: rest), (g.joint a).isSome = true) →
      g.bfRecurse (rv :: rest) assigned =
        some (bfFold ((leavesFrom assigned (rv :: rest)).map
          (fun a => (a, (g.joint a).getD 0)))) := by
  intro rest
  induction rest with
  | nil =>
    intro rv assigned h
    have hsub : ∀ v ∈ List.range rv.n_opts,
        g.bfRecurse [] (assigned ++ [(rv.name, Label.int (Int.ofNat v))]) =
          some (some (assigned ++ [(rv.name, Label.int (Int.ofNat v))]),
            (g.joint (assigned ++ [(rv.name, Label.int (Int.ofNat v))])).getD 0) := by
      intro v hv
      have hmem : (assigned ++ [(rv.name, Label.int (Int.ofNat v))]) ∈ leavesFrom assigned [rv] := by
        show _ ∈ (List.range rv.n_opts).flatMap
          (fun w => leavesFrom (assigned ++ [(rv.name, Label.int (Int.ofNat w))]) [])
        exact List.mem_flatMap.mpr ⟨v, hv, List.mem_singleton_self _⟩
      obtain ⟨q, hq⟩ := Option.isSome_iff_exists.mp (h _ hmem)
      show (match g.joint (assigned ++ [(rv.name, Label.int (Int.ofNat v))]) with
        | some r => some (some (assigned ++ [(rv.name, Label.int (Int.ofNat v))]), r)
        | none => none) = _
      rw [hq]
      rfl
    have hmain := foldl_bind_leaf
      (fun v => g.bfRecurse [] (assigned ++ [(rv.name, Label.int (Int.ofNat v))]))
      (fun v => (assigned ++ [(rv.name, Label.int (Int.ofNat v))],
        (g.joint (assigned ++ [(rv.name, Label.int (Int.ofNat v))])).getD 0))
      (List.range rv.n_opts) ((none : Option (List (String × Label))), (0 : ℚ)) hsub
    refine Eq.trans (by rfl) (hmain.trans ?_)
    have hleaves : leavesFrom assigned [rv] = (List.range rv.n_opts).map
        (fun v => assigned ++ [(rv.name, Label.int (Int.ofNat v))]) := by
      show (List.range rv.n_opts).flatMap
        (fun v => leavesFrom (assigned ++ [(rv.name, Label.int (Int.ofNat v))]) []) = _
      exact flatMap_single (fun v => assigned ++ [(rv.name, Label.int (Int.ofNat v))])
        (List.range rv.n_opts)
    rw [hleaves, List.map_map]
    rfl
  | cons rv2 rest2 ih =>
    intro rv assigned h
    have hsub : ∀ v ∈ List.range rv.n_opts,
        g.bfRecurse (rv2 :: rest2) (assigned ++ [(rv.name, Label.int (Int.ofNat v))]) =
          some (bfFold
            ((leavesFrom (assigned ++ [(rv.name, Label.int (Int.ofNat v))]) (rv2 :: rest2)).map
              (fun a => (a, (g.joint a).getD 0)))) := by
      intro v hv
      apply ih
      intro a ha
      apply h
      show a ∈ (List.range rv.n_opts).flatMap
        (fun w => leavesFrom (assigned ++ [(rv.name, Label.int (Int.ofNat w))]) (rv2 :: rest2))
      exact List.mem_flatMap.mpr ⟨v, hv, ha⟩
    have hmain := foldl_bind_combine
      (fun v => g.bfRecurse (rv2 :: rest2) (assigned ++ [(rv.name, Label.int (Int.ofNat v))]))
      (fun v => (leavesFrom (assigned ++ [(rv.name, Label.int (Int.ofNat v))]) (rv2 :: rest2)).map
        (fun a => (a, (g.joint a).getD 0)))
      (List.range rv.n_opts) ((none : Option (List (String × Label))), (0 : ℚ))
      (le_refl 0) hsub
    refine Eq.trans (by rfl) (hmain.trans ?_)
    have hlist : ((List.range rv.n_opts).flatMap (fun v =>
        leavesFrom (assigned ++ [(rv.name, Label.int (Int.ofNat v))]) (rv2 :: rest2))).map
          (fun a => (a, (g.joint a).getD 0))
        = (List.range rv.n_opts).flatMap (fun v =>
          (leavesFrom (assigned ++ [(rv.name, Label.int (Int.ofNat v))]) (rv2 :: rest2)).map
            (fun a => (a, (g.joint a).getD 0))) :=
      List.map_flatMap _ _ _
    show some (List.foldl bfStep ((none : Option (List (String × Label))), (0 : ℚ)) _) = _
    rw [← hlist]
    rfl


/- Splitting a mapped list around a distinguished element. -/

theorem map_eq_append_cons_split {α β : Type} (f : α → β) :
    ∀ (l : List α) (P1 : List β) (q : β) (P2 : List β),
      l.map f = P1 ++ q :: P2 →
      ∃ l1 x l2, l = l1 ++ x :: l2 ∧ l1.map f = P1 ∧ f x = q ∧ l2.map f = P2 := by
  intro l
  induction l with
  | nil =>
    intro P1 q P2 h
    rw [List.map_nil] at h
    cases P1 with
    | nil => simp at h
    | cons p P1x => simp at h
  | cons a t ih =>
    intro P1 q P2 h
    rw [List.map_cons] at h
    cases P1 with
    | nil =>
      rw [List.nil_append] at h
      injection h with h1 h2
      exact ⟨[], a, t, rfl, rfl, h1, h2⟩
    | cons p P1x =>
      rw [List.cons_append] at h
      injection h with h1 h2
      obtain ⟨l1, x, l2, he, hm1, hx, hm2⟩ := ih P1x q P2 h2
      refine ⟨a :: l1, x, l2, ?_, ?_, hx, hm2⟩
      · rw [he, List.cons_append]
      · rw [List.map_cons, hm1, h1]

/- The joint of a zero-RV graph is never a nonpositive number. -/

theorem eval_nil_assignment (f : Factor) : f.eval [] = none := by
  cases hrv : f.rvs with
  | nil =>
    cases hb : f.belief with
    | none => simp [Factor.eval, hrv, hb]
    | some b => simp [Factor.eval, hrv, hb]
  | cons rv rest =>
    have hguard : (f.rvs.all
        (fun rv => evalCheck rv (List.lookup rv.name ([] : List (String × Label))))) = false := by
      rw [hrv, List.all_cons]
      have hc : evalCheck rv (List.lookup rv.name ([] : List (String × Label))) = false := by
        simp [evalCheck, List.lookup]
      rw [hc, Bool.false_and]
    unfold Factor.eval
    rw [hguard, if_neg (by simp : ¬ (false = true))]

theorem foldl_evalbind_none (x : List (String × Label)) :
    ∀ (fs : List Factor),
      fs.foldl (fun acc f => acc.bind (fun p => (f.eval x).map (fun v => p * v))) none = none := by
  intro fs
  induction fs with
  | nil => rfl
  | cons f t ih =>
    rw [List.foldl_cons]
    exact ih

theorem joint_nil_rvs (g : Graph) (hrvs : g.rvs = []) :
    g.joint [] = none ∨ g.joint [] = some 1 := by
  have hval : g.jointValid [] = true := by simp [Graph.jointValid, hrvs]
  unfold Graph.joint
  rw [if_pos hval]
  cases hf : g.factors with
  | nil => exact Or.inr rfl
  | cons f t =>
    rw [List.foldl_cons]
    have hacc : ((some (1 : ℚ)).bind (fun p => (f.eval []).map (fun v => p * v))) = none := by
      rw [eval_nil_assignment]
      rfl
    rw [hacc, foldl_evalbind_none]
    exact Or.inl rfl

/-- C9: when every full assignment has a defined joint score that is at most
0, `bf_best_joint` returns `None` as the best assignment, paired with score
0.0 — the running-best comparison is strict, so no assignment ever replaces
the initial `(None, 0.0)`. -/
theorem c9_bf_best_joint_none_when_nonpositive (g : Graph)
    (hs : ∀ a ∈ leavesFrom [] g.rvs, (g.joint a).isSome = true)
    (hnp : ∀ a ∈ leavesFrom [] g.rvs, (g.joint a).getD 0 ≤ 0) :
    g.bf_best_joint = some (none, 0) := by
  cases hrvs : g.rvs with
  | nil =>
    exfalso
    have hmem : ([] : List (String × Label)) ∈ leavesFrom [] g.rvs := by
      rw [hrvs]
      exact List.mem_singleton_self _
    rcases joint_nil_rvs g hrvs with hn | h1
    · have hone := hs [] hmem
      rw [hn] at hone
      simp at hone
    · have hone := hnp [] hmem
      rw [h1, Option.getD_some] at hone
      norm_num at hone
  | cons rv rest =>
    have hs2 : ∀ a ∈ leavesFrom [] (rv :: rest), (g.joint a).isSome = true := by
      rw [hrvs] at hs
      exact hs
    have hbf : g.bf_best_joint = some (bfFold ((leavesFrom [] (rv :: rest)).map
        (fun a => (a, (g.joint a).getD 0)))) := by
      show g.bfRecurse g.rvs [] = _
      rw [hrvs]
      exact bfRecurse_eq_bfFold g rest rv [] hs2
    rw [hbf]
    obtain ⟨hbound, hdisj⟩ := bfFold_first_max ((leavesFrom [] (rv :: rest)).map
      (fun a => (a, (g.joint a).getD 0)))
    rcases hdisj with ⟨h1, h2⟩ | ⟨P1, aR, P2, hsplit, hfst, hposR, hpre⟩
    · congr 1
      exact Prod.ext h1 h2
    · exfalso
      obtain ⟨l1, x, l2, hle, hm1, hx, hm2⟩ :=
        map_eq_append_cons_split (fun a => (a, (g.joint a).getD 0))
          (leavesFrom [] (rv :: rest)) P1 _ P2 hsplit
      injection hx with hx1 hx2
      have hxmem : x ∈ leavesFrom [] (rv :: rest) := by
        rw [hle]
        exact List.mem_append_right _ (List.mem_cons_self _ _)
      have hble := hnp x (by rw [hrvs]; exact hxmem)
      rw [hx2] at hble
      exact absurd (lt_of_lt_of_le hposR hble) (lt_irrefl 0)

/-- C9 witness: the all-zero single-RV graph. -/
theorem c9_witness : gZero.bf_best_joint = some (none, 0) :=
  c9_bf_best_joint_none_when_nonpositive gZero (by decide)
    (by
      intro a ha
      have hl : leavesFrom [] gZero.rvs = [[("z", Label.int (Int.ofNat 0))]] := rfl
      rw [hl] at ha
      rw [List.mem_singleton.mp ha]
      have h : gZero.joint [("z", Label.int (Int.ofNat 0))] = some ((1 : ℚ) * 0) := rfl
      rw [h, Option.getD_some]
      norm_num)

/-- C6 counterexample: on the all-zero single-RV graph the unique full
assignment attains the maximal joint score (0.0), yet `bf_best_joint` returns
`None` rather than that assignment. -/
theorem c6_counterexample_zero_graph :
    gZero.bf_best_joint = some (none, 0) ∧
    gZero.joint [("z", Label.int 0)] = some 0 ∧
    leavesFrom [] gZero.rvs = [[("z", Label.int 0)]] := by
  have hj : gZero.joint [("z", Label.int 0)] = some ((1 : ℚ) * 0) := rfl
  have hj0 : gZero.joint [("z", Label.int 0)] = some 0 := by
    rw [hj]
    norm_num
  refine ⟨?_, hj0, rfl⟩
  show gZero.bfRecurse gZero.rvs [] = some (none, 0)
  have hdef : gZero.bfRecurse gZero.rvs [] =
      (List.range 1).foldl (fun acc v => acc.bind (fun best =>
        (gZero.bfRecurse [] ([] ++ [(zRV.name, Label.int (Int.ofNat v))])).map
          (fun pr => if best.2 < pr.2 then pr else best))) (some (none, 0)) := rfl
  rw [hdef]
  have hr1 : List.range 1 = [0] := rfl
  rw [hr1, List.foldl_cons, List.foldl_nil]
  have hsub : gZero.bfRecurse [] ([] ++ [(zRV.name, Label.int (Int.ofNat 0))]) =
      some (some [("z", Label.int 0)], (1 : ℚ) * 0) := rfl
  rw [hsub]
  simp only [Option.some_bind, Option.map_some']
  rw [if_neg (by norm_num)]

/-- C6 (amended): whenever some full assignment has a joint score strictly
greater than 0, `bf_best_joint` returns the first assignment in enumeration
order achieving the maximal joint score, together with that score; on ties
the earlier assignment is kept.  (As stated, the claim fails when no score
exceeds 0: `None` is returned instead of a maximizing assignment.) -/
theorem c6_bf_best_joint_first_argmax (g : Graph)
    (hs : ∀ a ∈ leavesFrom [] g.rvs, (g.joint a).isSome = true)
    (hpos : ∃ a ∈ leavesFrom [] g.rvs, 0 < (g.joint a).getD 0) :
    ∃ aStar L1 L2,
      g.bf_best_joint = some (some aStar, (g.joint aStar).getD 0) ∧
      0 < (g.joint aStar).getD 0 ∧
      leavesFrom [] g.rvs = L1 ++ aStar :: L2 ∧
      (∀ b ∈ leavesFrom [] g.rvs, (g.joint b).getD 0 ≤ (g.joint aStar).getD 0) ∧
      (∀ b ∈ L1, (g.joint b).getD 0 < (g.joint aStar).getD 0) := by
  cases hrvs : g.rvs with
  | nil =>
    obtain ⟨a, ha, hapos⟩ := hpos
    rw [hrvs] at ha
    have ha0 : a = [] := List.mem_singleton.mp ha
    subst ha0
    refine ⟨[], [], [], ?_, hapos, ?_, ?_, by simp⟩
    · show g.bfRecurse g.rvs [] = _
      rw [hrvs]
      have hdef : g.bfRecurse [] ([] : List (String × Label)) =
          (match g.joint [] with
           | some r => some (some [], r)
           | none => none) := rfl
      rw [hdef]
      have hmem0 : ([] : List (String × Label)) ∈ leavesFrom [] g.rvs := by
        rw [hrvs]
        exact List.mem_singleton_self _
      obtain ⟨q, hq⟩ := Option.isSome_iff_exists.mp (hs [] hmem0)
      rw [hq]
      rfl
    · rfl
    · intro b hb
      rw [List.mem_singleton.mp hb]
  | cons rv rest =>
    have hs2 : ∀ a ∈ leavesFrom [] (rv :: rest), (g.joint a).isSome = true := by
      rw [hrvs] at hs
      exact hs
    have hbf : g.bf_best_joint = some (bfFold ((leavesFrom [] (rv :: rest)).map
        (fun a => (a, (g.joint a).getD 0)))) := by
      show g.bfRecurse g.rvs [] = _
      rw [hrvs]
      exact bfRecurse_eq_bfFold g rest rv [] hs2
    obtain ⟨hbound, hdisj⟩ := bfFold_first_max ((leavesFrom [] (rv :: rest)).map
      (fun a => (a, (g.joint a).getD 0)))
    rcases hdisj with ⟨h1, h2⟩ | ⟨P1, aR, P2, hsplit, hfst, hposR, hpre⟩
    · exfalso
      obtain ⟨a, ha, hap⟩ := hpos
      have ha2 : a ∈ leavesFrom [] (rv :: rest) := by
        rw [hrvs] at ha
        exact ha
      have hmm : (a, (g.joint a).getD 0) ∈ (leavesFrom [] (rv :: rest)).map
          (fun a => (a, (g.joint a).getD 0)) :=
        List.mem_map_of_mem _ ha2
      have hle := hbound _ hmm
      rw [h2] at hle
      exact absurd (lt_of_lt_of_le hap hle) (lt_irrefl 0)
    · obtain ⟨l1, x, l2, hle, hm1, hx, hm2⟩ :=
        map_eq_append_cons_split (fun a => (a, (g.joint a).getD 0))
          (leavesFrom [] (rv :: rest)) P1 _ P2 hsplit
      injection hx with hx1 hx2
      refine ⟨x, l1, l2, ?_, ?_, ?_, ?_, ?_⟩
      · rw [hbf]
        have hfst2 : (bfFold ((leavesFrom [] (rv :: rest)).map
            (fun a => (a, (g.joint a).getD 0)))).1 = some x := by
          rw [hx1]
          exact hfst
        have hsnd2 : (bfFold ((leavesFrom [] (rv :: rest)).map
            (fun a => (a, (g.joint a).getD 0)))).2 = (g.joint x).getD 0 := hx2.symm
        have hfull : bfFold ((leavesFrom [] (rv :: rest)).map
            (fun a => (a, (g.joint a).getD 0))) = (some x, (g.joint x).getD 0) := by
          rw [← hfst2, ← hsnd2]
        rw [hfull]
      · rw [hx2]
        exact hposR
      · exact hle
      · intro b hb
        have hb2 : b ∈ leavesFrom [] (rv :: rest) := hb
        have hmm : (b, (g.joint b).getD 0) ∈ (leavesFrom [] (rv :: rest)).map
            (fun a => (a, (g.joint a).getD 0)) :=
          List.mem_map_of_mem _ hb2
        have hleb := hbound _ hmm
        rw [hx2]
        exact hleb
      · intro b hb
        have hmm : (b, (g.joint b).getD 0) ∈ P1 := by
          rw [← hm1]
          exact List.mem_map_of_mem _ hb
        have hltb := hpre _ hmm
        rw [hx2]
        exact hltb

/-- C6 witness: the `[8.0, 2.0]` single-RV graph, whose maximum 8.0 is
attained first at `r = 0`. -/
theorem c6_witness :
    ∃ aStar L1 L2,
      gC.bf_best_joint = some (some aStar, (gC.joint aStar).getD 0) ∧
      0 < (gC.joint aStar).getD 0 ∧
      leavesFrom [] gC.rvs = L1 ++ aStar :: L2 ∧
      (∀ b ∈ leavesFrom [] gC.rvs, (gC.joint b).getD 0 ≤ (gC.joint aStar).getD 0) ∧
      (∀ b ∈ L1, (gC.joint b).getD 0 < (gC.joint aStar).getD 0) :=
  c6_bf_best_joint_first_argmax gC (by decide)
    ⟨[("r", Label.int 0)], by decide, by
      have h : gC.joint [("r", Label.int 0)] = some ((1 : ℚ) * 8) := rfl
      rw [h, Option.getD_some]
      norm_num⟩

end FactorGraph
